import Mathlib

/-!
Verification of the fetch–sanitize–package pipeline of `stackblitz-zip`
(`src/download.ts`), shallowly embedded in Lean 4.

The embedding mirrors the source:
  * `normalizePath` — the path-traversal defense (`normalizePath` in the source);
    JavaScript's `"…".split('/')` / `Array.prototype.join('/')` are embedded as
    `splitSlash` / `joinSlash` on `List Char` with the exact JS semantics
    (splitting on every separator, keeping empty pieces, `"".split('/') = [""]`).
  * `downloadLoop` / `cloneLoop` — the per-entry loops of `downloadToResponse`
    and `cloneProject` (skip checks, size guard, accumulation), and
    `downloadToResponseModel` / `cloneProjectModel` — the surrounding
    validation / fetch-response handling, with the network response passed in
    as an explicit value.
  * `parseUrl` — the URL parser; the JS regex
    `/stackblitz\.com\/edit\/([^/?#]+)/` is embedded as a leftmost-first scan
    (`findEdit`) for the literal marker followed by a maximal nonempty run of
    characters outside `{'/', '?', '#'}`.
-/

namespace StackblitzZip

/-- JS `str.split('/')` on the character list: splits at every `'/'`,
keeping empty pieces; the empty string yields `[[]]`. -/
def splitSlash : List Char → List (List Char)
  | [] => [[]]
  | c :: rest =>
    if c = '/' then [] :: splitSlash rest
    else
      match splitSlash rest with
      | [] => [[c]]
      | s :: ss => (c :: s) :: ss

/-- JS `arr.join('/')` on character lists. -/
def joinSlash : List (List Char) → List Char
  | [] => []
  | [s] => s
  | s :: ss => s ++ '/' :: joinSlash ss

/-- The `'..'` segment. -/
def dotdot : List Char := ['.', '.']

/-- The `for (const part of parts)` loop of `normalizePath`: a `'..'` segment
pops the last accepted segment when one exists (else it is dropped); any other
segment is pushed. -/
def normLoop : List (List Char) → List (List Char) → List (List Char)
  | normalized, [] => normalized
  | normalized, part :: rest =>
    if part = dotdot then normLoop normalized.dropLast rest
    else normLoop (normalized ++ [part]) rest

/-- The segment list produced by `normalizePath`: split on `'/'`, drop empty
and `'.'` segments (`parts.filter(part => part && part !== '.')`), resolve
`'..'` by popping. -/
def normSegs (cs : List Char) : List (List Char) :=
  normLoop [] ((splitSlash cs).filter (fun part => part != [] && part != ['.']))

/-- `normalizePath` from `src/download.ts`: split on `'/'`, drop empty and
`'.'` segments, resolve `'..'` by popping (silently dropped above the root),
join the survivors with `'/'`. -/
def normalizePath (path : String) : String :=
  ⟨joinSlash (normSegs path.data)⟩

/-- JS `haystack.includes(needle)` on character lists: `needle` occurs as a
contiguous substring. -/
def listContainsSub (sub : List Char) : List Char → Bool
  | [] => sub.isEmpty
  | c :: rest => sub.isPrefixOf (c :: rest) || listContainsSub sub rest

/-- JS `s.includes(sub)`. -/
def jsIncludes (sub s : String) : Bool := listContainsSub sub.data s.data

/-- JS `s.startsWith(pre)`. -/
def jsStartsWith (pre s : String) : Bool := pre.data.isPrefixOf s.data

/-- The post-normalization rejection test of both pipelines:
`!normalizedPath || normalizedPath.startsWith('/') || normalizedPath.includes('..')`. -/
def suspiciousPath (normalizedPath : String) : Bool :=
  normalizedPath == "" || jsStartsWith "/" normalizedPath ||
    jsIncludes ".." normalizedPath

/-- The prefix-exclusion test of both pipelines, applied to the *raw* path:
`filePath.includes('node_modules/') || filePath.includes('.git/')`. -/
def isExcludedPath (filePath : String) : Bool :=
  jsIncludes "node_modules/" filePath || jsIncludes ".git/" filePath

/-- A character of the class `[\w-]` of the project-id regex `/^[\w-]+$/`
(JS `\w` is `[A-Za-z0-9_]`). -/
def isWordDashChar (c : Char) : Bool :=
  ('A' ≤ c && c ≤ 'Z') || ('a' ≤ c && c ≤ 'z') || ('0' ≤ c && c ≤ '9') ||
    c == '_' || c == '-'

/-- JS `/^[\w-]+$/.test(projectId)`: nonempty, every character in `[\w-]`. -/
def isValidProjectId (projectId : String) : Bool :=
  !projectId.data.isEmpty && projectId.data.all isWordDashChar

/-- UTF-8 byte length of file contents, as computed by
`new TextEncoder().encode(contents).length`. -/
def utf8Len (s : String) : Nat := s.utf8ByteSize

/-- The `type` field of a remote file entry (`'file' | 'directory'`). -/
inductive FileType
  | file
  | directory
  deriving DecidableEq

/-- A value of the `appFiles` record: `{ name, type, contents, fullPath }`. -/
structure FileData where
  name : String
  type : FileType
  contents : String
  fullPath : String
  deriving DecidableEq

/-- An entry pushed onto the `files` array of `downloadToResponse`
(`{ name: normalizedPath, input: fileData.contents }`). -/
structure ZipEntry where
  name : String
  input : String
  deriving DecidableEq

/-- The errors thrown by the pipelines, carrying the same data as the source's
error messages. -/
inductive DlError
  | invalidProjectId
  | fetchFailed (statusText : String)
  | noFiles
  | fileTooLarge (path : String) (maxFileSize : Nat)
  | totalSizeExceeded (maxTotalSize : Nat)
  deriving DecidableEq

/-- The `for (const [filePath, fileData] of Object.entries(appFiles))` loop of
`downloadToResponse`: prefix-exclusion on the raw path, directory skip,
post-normalization rejection, per-file and cumulative size guard, and
accumulation of the zip entries in order. -/
def downloadLoop (maxFileSize maxTotalSize : Nat) :
    List (String × FileData) → Nat → List ZipEntry → Except DlError (List ZipEntry)
  | [], _, files => .ok files
  | (filePath, fileData) :: rest, totalSize, files =>
    if isExcludedPath filePath then
      downloadLoop maxFileSize maxTotalSize rest totalSize files
    else if fileData.type ≠ FileType.file then
      downloadLoop maxFileSize maxTotalSize rest totalSize files
    else
      let normalizedPath := normalizePath filePath
      if suspiciousPath normalizedPath then
        downloadLoop maxFileSize maxTotalSize rest totalSize files
      else
        let fileSize := utf8Len fileData.contents
        if fileSize > maxFileSize then
          .error (.fileTooLarge normalizedPath maxFileSize)
        else if totalSize + fileSize > maxTotalSize then
          .error (.totalSizeExceeded maxTotalSize)
        else
          downloadLoop maxFileSize maxTotalSize rest (totalSize + fileSize)
            (files ++ [⟨normalizedPath, fileData.contents⟩])

/-- The corresponding loop of `cloneProject`: identical checks; the filesystem
writes are modelled as the ordered list of `(normalizedPath, contents)` pairs
written under the output root. -/
def cloneLoop (maxFileSize maxTotalSize : Nat) :
    List (String × FileData) → Nat → List (String × String) →
    Except DlError (List (String × String))
  | [], _, written => .ok written
  | (filePath, fileData) :: rest, totalSize, written =>
    if isExcludedPath filePath then
      cloneLoop maxFileSize maxTotalSize rest totalSize written
    else if fileData.type ≠ FileType.file then
      cloneLoop maxFileSize maxTotalSize rest totalSize written
    else
      let normalizedPath := normalizePath filePath
      if suspiciousPath normalizedPath then
        cloneLoop maxFileSize maxTotalSize rest totalSize written
      else
        let fileSize := utf8Len fileData.contents
        if fileSize > maxFileSize then
          .error (.fileTooLarge normalizedPath maxFileSize)
        else if totalSize + fileSize > maxTotalSize then
          .error (.totalSizeExceeded maxTotalSize)
        else
          cloneLoop maxFileSize maxTotalSize rest (totalSize + fileSize)
            (written ++ [(normalizedPath, fileData.contents)])

/-- The parsed `project` field of the remote response; `appFiles?` is `none`
when the `appFiles` field is absent (a JS falsy value). An empty `appFiles`
object is `some []`. -/
structure ProjectData where
  appFiles? : Option (List (String × FileData))
  deriving DecidableEq

/-- The outcome of the network fetch, passed to the models as an explicit
value: HTTP success flag, status text, and the parsed `project` field
(`none` when absent/null). -/
structure FetchResponse where
  ok : Bool
  statusText : String
  project? : Option ProjectData
  deriving DecidableEq

/-- `downloadToResponse` after the fetch is made explicit: project-id
validation, HTTP status check, `project`/`appFiles` presence check, then the
per-entry loop; on success the archive is built from the accumulated entries. -/
def downloadToResponseModel (projectId : String) (maxFileSize maxTotalSize : Nat)
    (resp : FetchResponse) : Except DlError (List ZipEntry) :=
  if !isValidProjectId projectId then .error .invalidProjectId
  else if !resp.ok then .error (.fetchFailed resp.statusText)
  else
    match resp.project? with
    | none => .error .noFiles
    | some projectData =>
      match projectData.appFiles? with
      | none => .error .noFiles
      | some appFiles => downloadLoop maxFileSize maxTotalSize appFiles 0 []

/-- `cloneProject` after the fetch is made explicit: the same validation and
response handling, then the clone loop. -/
def cloneProjectModel (projectId : String) (maxFileSize maxTotalSize : Nat)
    (resp : FetchResponse) : Except DlError (List (String × String)) :=
  if !isValidProjectId projectId then .error .invalidProjectId
  else if !resp.ok then .error (.fetchFailed resp.statusText)
  else
    match resp.project? with
    | none => .error .noFiles
    | some projectData =>
      match projectData.appFiles? with
      | none => .error .noFiles
      | some appFiles => cloneLoop maxFileSize maxTotalSize appFiles 0 []

/-- The literal the regex `/stackblitz\.com\/edit\/([^/?#]+)/` requires before
the captured segment. -/
def editMarker : List Char := "stackblitz.com/edit/".data

/-- A character matched by `[^/?#]`. -/
def segChar (c : Char) : Bool := c != '/' && c != '?' && c != '#'

/-- Attempt the regex match at the current position: the marker literal
followed by a maximal nonempty run of `[^/?#]` characters (the capture). -/
def matchEditAt (cs : List Char) : Option (List Char) :=
  if editMarker.isPrefixOf cs then
    let seg := (cs.drop editMarker.length).takeWhile segChar
    if seg.isEmpty then none else some seg
  else none

/-- Leftmost-first scan of the subject string, as JS `String.prototype.match`
does for a non-anchored regex. -/
def findEdit : List Char → Option (List Char)
  | [] => none
  | c :: rest =>
    match matchEditAt (c :: rest) with
    | some seg => some seg
    | none => findEdit rest

/-- `parseUrl` from `src/download.ts`: return the captured segment, or throw
`Invalid StackBlitz URL: <url>`. -/
def parseUrl (url : String) : Except String String :=
  match findEdit url.data with
  | some seg => .ok ⟨seg⟩
  | none => .error ("Invalid StackBlitz URL: " ++ url)

/-- An entry is skipped by the loops (contributing nothing to output or size
budget) iff its raw path is prefix-excluded, it is not of kind `file`, or its
normalized path fails the post-normalization rejection test. -/
def isSkippedEntry (filePath : String) (fileData : FileData) : Bool :=
  isExcludedPath filePath || fileData.type != FileType.file ||
    suspiciousPath (normalizePath filePath)

/-- The entries of a file tree that survive the skip checks. -/
def keptEntries (entries : List (String × FileData)) : List (String × FileData) :=
  entries.filter (fun e => !isSkippedEntry e.1 e.2)

/-- Cumulative UTF-8 byte size of the files that survive the skip checks. -/
def keptSize (entries : List (String × FileData)) : Nat :=
  ((keptEntries entries).map (fun e => utf8Len e.2.contents)).sum

/-! ### Lemmas about `splitSlash`, `joinSlash` and `normLoop` -/

theorem splitSlash_ne_nil (cs : List Char) : splitSlash cs ≠ [] := by
  cases cs with
  | nil => simp [splitSlash]
  | cons c rest =>
    simp only [splitSlash]
    split
    · simp
    · split <;> simp

theorem mem_splitSlash_no_slash :
    ∀ (cs : List Char), ∀ s ∈ splitSlash cs, '/' ∉ s := by
  intro cs
  induction cs with
  | nil =>
    intro s hs
    simp [splitSlash] at hs
    simp [hs]
  | cons c rest ih =>
    intro s hs
    simp only [splitSlash] at hs
    by_cases hc : c = '/'
    · rw [if_pos hc] at hs
      rcases List.mem_cons.mp hs with h | h
      · simp [h]
      · exact ih s h
    · rw [if_neg hc] at hs
      rcases hsplit : splitSlash rest with _ | ⟨hd, tl⟩
      · exact absurd hsplit (splitSlash_ne_nil rest)
      · rw [hsplit] at hs
        rcases List.mem_cons.mp hs with h | h
        · subst h
          intro hmem
          rcases List.mem_cons.mp hmem with h | h
          · exact hc h.symm
          · exact ih hd (hsplit ▸ List.mem_cons_self hd tl) h
        · exact ih s (hsplit ▸ List.mem_cons_of_mem hd h)

theorem splitSlash_no_slash (cs : List Char) (h : '/' ∉ cs) :
    splitSlash cs = [cs] := by
  induction cs with
  | nil => rfl
  | cons c rest ih =>
    have hc : c ≠ '/' := fun he => h (he ▸ List.mem_cons_self c rest)
    have hrest : '/' ∉ rest := fun hm => h (List.mem_cons_of_mem c hm)
    simp only [splitSlash, if_neg hc, ih hrest]

theorem splitSlash_append (s t : List Char) (h : '/' ∉ s) :
    splitSlash (s ++ '/' :: t) = s :: splitSlash t := by
  induction s with
  | nil => simp [splitSlash]
  | cons c s' ih =>
    have hc : c ≠ '/' := fun he => h (he ▸ List.mem_cons_self c s')
    have hs' : '/' ∉ s' := fun hm => h (List.mem_cons_of_mem c hm)
    simp only [List.cons_append, splitSlash, if_neg hc, List.append_eq, ih hs']

theorem splitSlash_joinSlash :
    ∀ (l : List (List Char)), l ≠ [] → (∀ s ∈ l, s ≠ [] ∧ '/' ∉ s) →
      splitSlash (joinSlash l) = l := by
  intro l
  induction l with
  | nil => intro h; exact absurd rfl h
  | cons s ss ih =>
    intro _ hprops
    cases ss with
    | nil =>
      have := hprops s (List.mem_cons_self s [])
      simp only [joinSlash, splitSlash_no_slash s this.2]
    | cons s' ss' =>
      have hs := hprops s (List.mem_cons_self s _)
      have hrest : ∀ u ∈ s' :: ss', u ≠ [] ∧ '/' ∉ u :=
        fun u hu => hprops u (List.mem_cons_of_mem s hu)
      show splitSlash (s ++ '/' :: joinSlash (s' :: ss')) = _
      rw [splitSlash_append s _ hs.2, ih (by simp) hrest]

theorem mem_normLoop :
    ∀ (parts acc : List (List Char)) (s : List Char), s ∈ normLoop acc parts →
      s ∈ acc ∨ (s ∈ parts ∧ s ≠ dotdot) := by
  intro parts
  induction parts with
  | nil => intro acc s hs; exact Or.inl hs
  | cons part rest ih =>
    intro acc s hs
    simp only [normLoop] at hs
    by_cases hp : part = dotdot
    · rw [if_pos hp] at hs
      rcases ih _ s hs with h | h
      · exact Or.inl ((acc.dropLast_sublist).subset h)
      · exact Or.inr ⟨List.mem_cons_of_mem part h.1, h.2⟩
    · rw [if_neg hp] at hs
      rcases ih _ s hs with h | h
      · rcases List.mem_append.mp h with h | h
        · exact Or.inl h
        · have : s = part := by simpa using h
          exact Or.inr ⟨this ▸ List.mem_cons_self part rest, this ▸ hp⟩
      · exact Or.inr ⟨List.mem_cons_of_mem part h.1, h.2⟩

theorem normLoop_no_dotdot :
    ∀ (parts acc : List (List Char)), (∀ s ∈ parts, s ≠ dotdot) →
      normLoop acc parts = acc ++ parts := by
  intro parts
  induction parts with
  | nil => intro acc _; simp [normLoop]
  | cons part rest ih =>
    intro acc h
    have hp : part ≠ dotdot := h part (List.mem_cons_self part rest)
    simp only [normLoop, if_neg hp]
    rw [ih _ (fun s hs => h s (List.mem_cons_of_mem part hs))]
    simp

/-- Every segment surviving normalization is nonempty, slash-free, and is
neither `'.'` nor `'..'`. -/
theorem mem_normSegs (cs : List Char) :
    ∀ s ∈ normSegs cs, s ≠ [] ∧ '/' ∉ s ∧ s ≠ ['.'] ∧ s ≠ dotdot := by
  intro s hs
  rcases mem_normLoop _ _ _ hs with h | h
  · simp at h
  · rcases h with ⟨hmem, hdd⟩
    rcases List.mem_filter.mp hmem with ⟨hsplit, hpred⟩
    simp only [bne_iff_ne, Bool.and_eq_true, ne_eq] at hpred
    exact ⟨hpred.1, mem_splitSlash_no_slash cs s hsplit, hpred.2, hdd⟩

theorem joinSlash_cons (s : List Char) (ss : List (List Char)) :
    ∃ t, joinSlash (s :: ss) = s ++ t := by
  cases ss with
  | nil => exact ⟨[], by simp [joinSlash]⟩
  | cons s' ss' => exact ⟨'/' :: joinSlash (s' :: ss'), rfl⟩

/-- The result of `normalizePath` never starts with `'/'`. -/
theorem normalizePath_no_leading_slash (p : String) :
    jsStartsWith "/" (normalizePath p) = false := by
  show ['/'].isPrefixOf (joinSlash (normSegs p.data)) = false
  cases h : normSegs p.data with
  | nil => rfl
  | cons s ss =>
    have hs := mem_normSegs p.data s (h ▸ List.mem_cons_self s ss)
    rcases List.exists_cons_of_ne_nil hs.1 with ⟨c, s', hcs⟩
    have hc : c ≠ '/' := by
      intro he
      exact hs.2.1 (he ▸ hcs ▸ List.mem_cons_self c s')
    rcases joinSlash_cons s ss with ⟨t, ht⟩
    rw [ht, hcs]
    simp only [List.cons_append, List.isPrefixOf, Bool.and_eq_false_iff]
    exact Or.inl (beq_eq_false_iff_ne.mpr (Ne.symm hc))

/-- The result of `normalizePath` never contains a `'..'` segment. -/
theorem normalizePath_no_dotdot_segment (p : String) :
    dotdot ∉ splitSlash (normalizePath p).data := by
  show dotdot ∉ splitSlash (joinSlash (normSegs p.data))
  cases h : normSegs p.data with
  | nil =>
    show dotdot ∉ splitSlash (joinSlash [])
    simp [joinSlash, splitSlash, dotdot]
  | cons s ss =>
    have hprops : ∀ u ∈ s :: ss, u ≠ [] ∧ '/' ∉ u := by
      intro u hu
      have := mem_normSegs p.data u (h ▸ hu)
      exact ⟨this.1, this.2.1⟩
    rw [splitSlash_joinSlash _ (by simp) hprops]
    intro hmem
    exact (mem_normSegs p.data dotdot (h ▸ hmem)).2.2.2 rfl

theorem normSegs_joinSlash_normSegs (cs : List Char) :
    normSegs (joinSlash (normSegs cs)) = normSegs cs := by
  cases h : normSegs cs with
  | nil => rfl
  | cons s ss =>
    have hprops : ∀ u ∈ s :: ss, u ≠ [] ∧ '/' ∉ u := by
      intro u hu
      have := mem_normSegs cs u (h ▸ hu)
      exact ⟨this.1, this.2.1⟩
    show normLoop [] (((splitSlash (joinSlash (s :: ss))).filter
      (fun part => part != [] && part != ['.']))) = s :: ss
    rw [splitSlash_joinSlash _ (by simp) hprops]
    rw [List.filter_eq_self.mpr ?_]
    · rw [normLoop_no_dotdot _ [] ?_]
      · simp
      · intro u hu
        exact (mem_normSegs cs u (h ▸ hu)).2.2.2
    · intro u hu
      have := mem_normSegs cs u (h ▸ hu)
      simp only [bne_iff_ne, Bool.and_eq_true, ne_eq]
      exact ⟨this.1, this.2.2.1⟩

/-- `normalizePath` is idempotent. -/
theorem normalizePath_idem_aux (p : String) :
    normalizePath (normalizePath p) = normalizePath p := by
  apply String.ext
  show joinSlash (normSegs (joinSlash (normSegs p.data))) = joinSlash (normSegs p.data)
  rw [normSegs_joinSlash_normSegs]

/-! ### Lemmas about the per-entry loops -/

theorem downloadLoop_skip (mfs mts : Nat) (fp : String) (fd : FileData)
    (rest : List (String × FileData)) (ts : Nat) (files : List ZipEntry)
    (h : isSkippedEntry fp fd = true) :
    downloadLoop mfs mts ((fp, fd) :: rest) ts files =
      downloadLoop mfs mts rest ts files := by
  simp only [isSkippedEntry, Bool.or_eq_true, bne_iff_ne, ne_eq] at h
  by_cases h1 : isExcludedPath fp = true
  · simp only [downloadLoop, h1, if_true]
  · rw [Bool.not_eq_true] at h1
    by_cases h2 : fd.type = FileType.file
    · have h3 : suspiciousPath (normalizePath fp) = true := by
        rcases h with (h | h) | h
        · rw [h] at h1; cases h1
        · exact absurd h2 h
        · exact h
      simp [downloadLoop, h1, h2, h3]
    · simp [downloadLoop, h1, h2]

theorem cloneLoop_skip (mfs mts : Nat) (fp : String) (fd : FileData)
    (rest : List (String × FileData)) (ts : Nat) (written : List (String × String))
    (h : isSkippedEntry fp fd = true) :
    cloneLoop mfs mts ((fp, fd) :: rest) ts written =
      cloneLoop mfs mts rest ts written := by
  simp only [isSkippedEntry, Bool.or_eq_true, bne_iff_ne, ne_eq] at h
  by_cases h1 : isExcludedPath fp = true
  · simp only [cloneLoop, h1, if_true]
  · rw [Bool.not_eq_true] at h1
    by_cases h2 : fd.type = FileType.file
    · have h3 : suspiciousPath (normalizePath fp) = true := by
        rcases h with (h | h) | h
        · rw [h] at h1; cases h1
        · exact absurd h2 h
        · exact h
      simp [cloneLoop, h1, h2, h3]
    · simp [cloneLoop, h1, h2]

/-- On identical inputs the clone loop produces exactly the zip entries of the
download loop, rendered as `(path, contents)` pairs, and the identical error
otherwise. -/
theorem loops_agree (mfs mts : Nat) :
    ∀ (entries : List (String × FileData)) (ts : Nat) (files : List ZipEntry),
      cloneLoop mfs mts entries ts (files.map (fun z => (z.name, z.input))) =
        Except.map (List.map (fun z => (z.name, z.input)))
          (downloadLoop mfs mts entries ts files) := by
  intro entries
  induction entries with
  | nil => intro ts files; rfl
  | cons e rest ih =>
    intro ts files
    rcases e with ⟨fp, fd⟩
    simp only [downloadLoop, cloneLoop]
    by_cases h1 : isExcludedPath fp = true
    · rw [if_pos h1, if_pos h1]; exact ih ts files
    · rw [if_neg h1, if_neg h1]
      by_cases h2 : fd.type ≠ FileType.file
      · rw [if_pos h2, if_pos h2]; exact ih ts files
      · rw [if_neg h2, if_neg h2]
        by_cases h3 : suspiciousPath (normalizePath fp) = true
        · rw [if_pos h3, if_pos h3]; exact ih ts files
        · rw [if_neg h3, if_neg h3]
          by_cases h4 : utf8Len fd.contents > mfs
          · rw [if_pos h4, if_pos h4]; rfl
          · rw [if_neg h4, if_neg h4]
            by_cases h5 : ts + utf8Len fd.contents > mts
            · rw [if_pos h5, if_pos h5]; rfl
            · rw [if_neg h5, if_neg h5]
              have := ih (ts + utf8Len fd.contents)
                (files ++ [⟨normalizePath fp, fd.contents⟩])
              simpa using this

theorem suspiciousPath_false (n : String) (h : suspiciousPath n = false) :
    n ≠ "" ∧ jsStartsWith "/" n = false ∧ jsIncludes ".." n = false := by
  simp only [suspiciousPath, Bool.or_eq_false_iff] at h
  exact ⟨beq_eq_false_iff_ne.mp h.1.1, h.1.2, h.2⟩

theorem isSkippedEntry_false (fp : String) (fd : FileData)
    (h : isSkippedEntry fp fd = false) :
    isExcludedPath fp = false ∧ fd.type = FileType.file ∧
      suspiciousPath (normalizePath fp) = false := by
  simp only [isSkippedEntry, Bool.or_eq_false_iff, bne_eq_false_iff_eq] at h
  exact ⟨h.1.1, h.1.2, h.2⟩

/-- The only errors the download loop can produce are the two size errors. -/
theorem downloadLoop_error_shape (mfs mts : Nat) :
    ∀ (entries : List (String × FileData)) (ts : Nat) (files : List ZipEntry)
      (e : DlError), downloadLoop mfs mts entries ts files = .error e →
      (∃ p, e = .fileTooLarge p mfs) ∨ e = .totalSizeExceeded mts := by
  intro entries
  induction entries with
  | nil => intro ts files e h; simp [downloadLoop] at h
  | cons ent rest ih =>
    intro ts files e h
    rcases ent with ⟨fp, fd⟩
    simp only [downloadLoop] at h
    by_cases h1 : isExcludedPath fp = true
    · rw [if_pos h1] at h; exact ih ts files e h
    · rw [if_neg h1] at h
      by_cases h2 : fd.type ≠ FileType.file
      · rw [if_pos h2] at h; exact ih ts files e h
      · rw [if_neg h2] at h
        by_cases h3 : suspiciousPath (normalizePath fp) = true
        · rw [if_pos h3] at h; exact ih ts files e h
        · rw [if_neg h3] at h
          by_cases h4 : utf8Len fd.contents > mfs
          · rw [if_pos h4] at h
            injection h with h'
            exact Or.inl ⟨normalizePath fp, h'.symm⟩
          · rw [if_neg h4] at h
            by_cases h5 : ts + utf8Len fd.contents > mts
            · rw [if_pos h5] at h
              injection h with h'
              exact Or.inr h'.symm
            · rw [if_neg h5] at h
              exact ih _ _ e h

/-- Every entry the download loop accepts has a nonempty name. -/
theorem downloadLoop_names (mfs mts : Nat) :
    ∀ (entries : List (String × FileData)) (ts : Nat) (files out : List ZipEntry),
      (∀ z ∈ files, z.name ≠ "") →
      downloadLoop mfs mts entries ts files = .ok out →
      ∀ z ∈ out, z.name ≠ "" := by
  intro entries
  induction entries with
  | nil =>
    intro ts files out hf h
    simp only [downloadLoop] at h
    injection h with h'
    exact h' ▸ hf
  | cons ent rest ih =>
    intro ts files out hf h
    rcases ent with ⟨fp, fd⟩
    simp only [downloadLoop] at h
    by_cases h1 : isExcludedPath fp = true
    · rw [if_pos h1] at h; exact ih ts files out hf h
    · rw [if_neg h1] at h
      by_cases h2 : fd.type ≠ FileType.file
      · rw [if_pos h2] at h; exact ih ts files out hf h
      · rw [if_neg h2] at h
        by_cases h3 : suspiciousPath (normalizePath fp) = true
        · rw [if_pos h3] at h; exact ih ts files out hf h
        · rw [if_neg h3] at h
          by_cases h4 : utf8Len fd.contents > mfs
          · rw [if_pos h4] at h; cases h
          · rw [if_neg h4] at h
            by_cases h5 : ts + utf8Len fd.contents > mts
            · rw [if_pos h5] at h; cases h
            · rw [if_neg h5] at h
              rw [Bool.not_eq_true] at h3
              refine ih _ _ out ?_ h
              intro z hz
              rcases List.mem_append.mp hz with hz | hz
              · exact hf z hz
              · have : z = ⟨normalizePath fp, fd.contents⟩ := by simpa using hz
                rw [this]
                exact (suspiciousPath_false _ h3).1

theorem keptEntries_cons_skip (f : String × FileData)
    (rest : List (String × FileData)) (h : isSkippedEntry f.1 f.2 = true) :
    keptEntries (f :: rest) = keptEntries rest := by
  simp [keptEntries, List.filter_cons, h]

theorem keptEntries_cons_keep (f : String × FileData)
    (rest : List (String × FileData)) (h : isSkippedEntry f.1 f.2 = false) :
    keptEntries (f :: rest) = f :: keptEntries rest := by
  simp [keptEntries, List.filter_cons, h]

theorem keptSize_cons_skip (f : String × FileData)
    (rest : List (String × FileData)) (h : isSkippedEntry f.1 f.2 = true) :
    keptSize (f :: rest) = keptSize rest := by
  simp [keptSize, keptEntries_cons_skip f rest h]

theorem keptSize_cons_keep (f : String × FileData)
    (rest : List (String × FileData)) (h : isSkippedEntry f.1 f.2 = false) :
    keptSize (f :: rest) = utf8Len f.2.contents + keptSize rest := by
  simp [keptSize, keptEntries_cons_keep f rest h]

/-- If every skip-surviving file before `e` fits the per-file limit and their
running total stays within the budget, while adding `e` (also surviving, also
fitting the per-file limit) pushes the total strictly above the cumulative
ceiling, the download loop fails with the total-size error — whatever follows
`e` is never examined. -/
theorem downloadLoop_totalSize (mfs mts : Nat) (e : String × FileData)
    (post : List (String × FileData))
    (hkeep : isSkippedEntry e.1 e.2 = false)
    (hesize : utf8Len e.2.contents ≤ mfs) :
    ∀ (pre : List (String × FileData)) (ts : Nat) (files : List ZipEntry),
      (∀ f ∈ keptEntries pre, utf8Len f.2.contents ≤ mfs) →
      ts + keptSize pre ≤ mts →
      ts + keptSize pre + utf8Len e.2.contents > mts →
      downloadLoop mfs mts (pre ++ e :: post) ts files =
        .error (.totalSizeExceeded mts) := by
  intro pre
  induction pre with
  | nil =>
    intro ts files _ _ hcross
    rcases e with ⟨fp, fd⟩
    rcases isSkippedEntry_false fp fd hkeep with ⟨h1, h2, h3⟩
    simp only [List.nil_append, downloadLoop]
    rw [if_neg (by simp [h1]), if_neg (by simp [h2]), if_neg (by simp [h3]),
      if_neg (by simpa using hesize)]
    rw [if_pos (by simpa [keptSize, keptEntries] using hcross)]
  | cons f pre' ih =>
    rcases f with ⟨ffp, ffd⟩
    intro ts files hsmall hpre hcross
    by_cases hf : isSkippedEntry ffp ffd = true
    · rw [List.cons_append, downloadLoop_skip mfs mts ffp ffd _ ts files hf]
      refine ih ts files ?_ ?_ ?_
      · intro g hg
        exact hsmall g ((keptEntries_cons_skip (ffp, ffd) pre' hf) ▸ hg)
      · rw [← keptSize_cons_skip (ffp, ffd) pre' hf]; exact hpre
      · rw [← keptSize_cons_skip (ffp, ffd) pre' hf]; exact hcross
    · rw [Bool.not_eq_true] at hf
      rcases isSkippedEntry_false ffp ffd hf with ⟨h1, h2, h3⟩
      have hfsize : utf8Len ffd.contents ≤ mfs := by
        refine hsmall (ffp, ffd) ?_
        rw [keptEntries_cons_keep (ffp, ffd) pre' hf]
        exact List.mem_cons_self _ _
      have hks : keptSize ((ffp, ffd) :: pre') =
          utf8Len ffd.contents + keptSize pre' :=
        keptSize_cons_keep (ffp, ffd) pre' hf
      rw [hks] at hpre hcross
      rw [List.cons_append]
      simp only [downloadLoop]
      rw [if_neg (by simp [h1]), if_neg (by simp [h2]), if_neg (by simp [h3]),
        if_neg (by simpa using hfsize), if_neg (by omega)]
      exact ih (ts + utf8Len ffd.contents) _
        (fun g hg => hsmall g (by
          rw [keptEntries_cons_keep (ffp, ffd) pre' hf]
          exact List.mem_cons_of_mem _ hg))
        (by omega) (by omega)

/-! ### Lemmas about `parseUrl` -/

theorem editMarker_ne_nil : editMarker ≠ [] := by decide

theorem editMarker_length : editMarker.length = 20 := rfl

theorem listContainsSub_of_prefix (sub l : List Char) (h : sub <+: l) :
    listContainsSub sub l = true := by
  cases l with
  | nil =>
    have : sub = [] := List.prefix_nil.mp h
    simp [listContainsSub, this]
  | cons c rest =>
    simp only [listContainsSub, Bool.or_eq_true]
    exact Or.inl (List.isPrefixOf_iff_prefix.mpr h)

theorem contains_of_isPrefixOf_append (sub A t : List Char)
    (h : sub.isPrefixOf (A ++ t) = true) (hlen : sub.length ≤ A.length) :
    listContainsSub sub A = true := by
  have hp : sub <+: A ++ t := List.isPrefixOf_iff_prefix.mp h
  have htake : sub = (A ++ t).take sub.length := List.prefix_iff_eq_take.mp hp
  rw [List.take_append_eq_append_take, Nat.sub_eq_zero_of_le hlen,
    List.take_zero, List.append_nil] at htake
  refine listContainsSub_of_prefix _ _ ?_
  rw [htake]
  exact List.take_prefix _ _

theorem matchEditAt_append (rest : List Char) :
    matchEditAt (editMarker ++ rest) =
      if (rest.takeWhile segChar).isEmpty then none
      else some (rest.takeWhile segChar) := by
  unfold matchEditAt
  rw [if_pos (List.isPrefixOf_iff_prefix.mpr (List.prefix_append _ _))]
  rw [List.drop_left]

theorem findEdit_append (pre rest seg : List Char)
    (hnc : listContainsSub editMarker (pre ++ editMarker.dropLast) = false)
    (hm : matchEditAt (editMarker ++ rest) = some seg) :
    findEdit (pre ++ (editMarker ++ rest)) = some seg := by
  induction pre with
  | nil =>
    rcases List.exists_cons_of_ne_nil editMarker_ne_nil with ⟨m0, m', hm0⟩
    rw [List.nil_append, hm0, List.cons_append]
    simp only [findEdit]
    rw [← List.cons_append, ← hm0, hm]
  | cons c pre' ih =>
    have hnotpref : ¬ editMarker.isPrefixOf ((c :: pre') ++ (editMarker ++ rest)) = true := by
      intro hcon
      have hlast := List.dropLast_append_getLast editMarker_ne_nil
      have hdecomp : (c :: pre') ++ (editMarker ++ rest) =
          ((c :: pre') ++ editMarker.dropLast) ++
            (editMarker.getLast editMarker_ne_nil :: rest) := by
        conv_lhs => rw [← hlast]
        simp [List.append_assoc]
      rw [hdecomp] at hcon
      have hlen : editMarker.length ≤ ((c :: pre') ++ editMarker.dropLast).length := by
        have h1 : editMarker.dropLast.length = 19 := rfl
        simp only [List.length_append, List.length_cons, h1, editMarker_length]
        omega
      have := contains_of_isPrefixOf_append _ _ _ hcon hlen
      rw [this] at hnc
      cases hnc
    have hnc' : listContainsSub editMarker (pre' ++ editMarker.dropLast) = false := by
      rw [List.cons_append] at hnc
      simp only [listContainsSub, Bool.or_eq_false_iff] at hnc
      exact hnc.2
    rw [List.cons_append]
    simp only [findEdit]
    have hnone : matchEditAt (c :: (pre' ++ (editMarker ++ rest))) = none := by
      unfold matchEditAt
      rw [if_neg (by rw [← List.cons_append]; exact hnotpref)]
    rw [hnone]
    exact ih hnc'

theorem findEdit_some_decomp :
    ∀ (cs seg : List Char), findEdit cs = some seg →
      ∃ pre rest, cs = pre ++ (editMarker ++ rest) ∧
        seg = rest.takeWhile segChar ∧ seg ≠ [] := by
  intro cs
  induction cs with
  | nil => intro seg h; cases h
  | cons c rest' ih =>
    intro seg h
    simp only [findEdit] at h
    cases hm : matchEditAt (c :: rest') with
    | none =>
      rw [hm] at h
      rcases ih seg h with ⟨pre, r, hcs, hseg, hne⟩
      exact ⟨c :: pre, r, by rw [List.cons_append, hcs], hseg, hne⟩
    | some seg' =>
      rw [hm] at h
      have hseg' : seg' = seg := by injection h
      subst hseg'
      unfold matchEditAt at hm
      by_cases hp : editMarker.isPrefixOf (c :: rest') = true
      · rw [if_pos hp] at hm
        rcases List.isPrefixOf_iff_prefix.mp hp with ⟨t, ht⟩
        refine ⟨[], t, by rw [List.nil_append, ht], ?_, ?_⟩
        · rw [← ht, List.drop_left] at hm
          by_cases he : (t.takeWhile segChar).isEmpty = true
          · rw [if_pos he] at hm; cases hm
          · rw [if_neg he] at hm
            injection hm with hm'
            exact hm'.symm
        · rw [← ht, List.drop_left] at hm
          by_cases he : (t.takeWhile segChar).isEmpty = true
          · rw [if_pos he] at hm; cases hm
          · rw [if_neg he] at hm
            injection hm with hm'
            rw [← hm']
            exact List.isEmpty_eq_false.mp (Bool.not_eq_true _ ▸ he)
      · rw [if_neg hp] at hm
        cases hm

theorem parseUrl_ok_of (pre rest : List Char) (url : String)
    (hurl : url.data = pre ++ editMarker ++ rest)
    (hnc : listContainsSub editMarker (pre ++ editMarker.dropLast) = false)
    (hne : rest.takeWhile segChar ≠ []) :
    parseUrl url = .ok ⟨rest.takeWhile segChar⟩ := by
  have hm : matchEditAt (editMarker ++ rest) = some (rest.takeWhile segChar) := by
    rw [matchEditAt_append, if_neg (by simp [List.isEmpty_eq_false.mpr hne])]
  have hf : findEdit url.data = some (rest.takeWhile segChar) := by
    rw [hurl, List.append_assoc]
    exact findEdit_append pre rest _ hnc hm
  unfold parseUrl
  rw [hf]

theorem parseUrl_error_of (url : String)
    (h : ¬ ∃ pre rest, url.data = pre ++ editMarker ++ rest ∧
      rest.takeWhile segChar ≠ []) :
    parseUrl url = .error ("Invalid StackBlitz URL: " ++ url) := by
  unfold parseUrl
  cases hf : findEdit url.data with
  | none => rfl
  | some seg =>
    rcases findEdit_some_decomp url.data seg hf with ⟨pre, rest, hcs, hseg, hne⟩
    exact absurd
      ⟨pre, rest, hcs.trans (List.append_assoc pre editMarker rest).symm, hseg ▸ hne⟩ h

/-! ### Lemmas about the top-level models -/

theorem except_map_error_iff {α β : Type} (f : α → β) (x : Except DlError α)
    (e : DlError) : Except.map f x = .error e ↔ x = .error e := by
  cases x <;> simp [Except.map]

/-- The archive pipeline and the filesystem pipeline agree: the clone model is
exactly the download model with each zip entry rendered as a
`(path, contents)` pair. -/
theorem models_agree (pid : String) (mfs mts : Nat) (resp : FetchResponse) :
    Except.map (List.map (fun z => (z.name, z.input)))
        (downloadToResponseModel pid mfs mts resp) =
      cloneProjectModel pid mfs mts resp := by
  rcases resp with ⟨ok, st, proj⟩
  unfold downloadToResponseModel cloneProjectModel
  by_cases h1 : (!isValidProjectId pid) = true
  · rw [if_pos h1, if_pos h1]; rfl
  · rw [if_neg h1, if_neg h1]
    by_cases h2 : (!ok) = true
    · simp only [if_pos h2]; rfl
    · simp only [if_neg h2]
      cases proj with
      | none => rfl
      | some pd =>
        cases hpd : pd.appFiles? with
        | none => simp only [hpd]; rfl
        | some appFiles =>
          simp only [hpd]
          have := loops_agree mfs mts appFiles 0 []
          simp only [List.map_nil] at this
          exact this.symm

/-! ### Claim theorems -/

/-- C1: `normalizePath` never returns a string starting with `'/'` and never
returns a string containing a `'..'` segment; `'..'` segments that would pop
above the root are silently dropped (`"../../etc/passwd" ↦ "etc/passwd"`,
`"a/../../b" ↦ "b"`); and every entry accepted into the output of either
pipeline has a nonempty normalized path. -/
theorem claim_C1_normalizePath_safety :
    (∀ p : String, jsStartsWith "/" (normalizePath p) = false) ∧
    (∀ p : String, dotdot ∉ splitSlash (normalizePath p).data) ∧
    normalizePath "../../etc/passwd" = "etc/passwd" ∧
    normalizePath "a/../../b" = "b" ∧
    (∀ (mfs mts : Nat) (entries : List (String × FileData)) (out : List ZipEntry),
      downloadLoop mfs mts entries 0 [] = .ok out → ∀ z ∈ out, z.name ≠ "") ∧
    (∀ (mfs mts : Nat) (entries : List (String × FileData))
      (out : List (String × String)),
      cloneLoop mfs mts entries 0 [] = .ok out → ∀ w ∈ out, w.1 ≠ "") := by
  refine ⟨normalizePath_no_leading_slash, normalizePath_no_dotdot_segment, rfl, rfl,
    ?_, ?_⟩
  · intro mfs mts entries out h
    exact downloadLoop_names mfs mts entries 0 [] out (by simp) h
  · intro mfs mts entries out h w hw
    have hagree := loops_agree mfs mts entries 0 []
    simp only [List.map_nil] at hagree
    rw [hagree] at h
    cases hd : downloadLoop mfs mts entries 0 [] with
    | error e => rw [hd] at h; cases h
    | ok out' =>
      rw [hd] at h
      simp only [Except.map] at h
      injection h with h'
      rw [← h'] at hw
      rcases List.mem_map.mp hw with ⟨z, hz, hzw⟩
      rw [← hzw]
      exact downloadLoop_names mfs mts entries 0 [] out' (by simp) hd z hz

/-- C1 witness: a concrete accepted entry, produced by the download loop, has
a nonempty name. -/
theorem claim_C1_witness :
    downloadLoop 10 10 [("a", ⟨"a", FileType.file, "x", "a"⟩)] 0 [] =
      .ok [⟨"a", "x"⟩] ∧ (⟨"a", "x"⟩ : ZipEntry).name ≠ "" := by
  have h : downloadLoop 10 10 [("a", ⟨"a", FileType.file, "x", "a"⟩)] 0 [] =
      .ok [⟨"a", "x"⟩] := rfl
  exact ⟨h, claim_C1_normalizePath_safety.2.2.2.2.1 10 10 _ _ h ⟨"a", "x"⟩
    (List.mem_cons_self _ _)⟩

/-- C2: on every file tree and identical size configuration, the archive
pipeline and the filesystem pipeline accept exactly the same entries, in the
same order, with the same normalized paths and contents, and fail with the
same error at the same entry. -/
theorem claim_C2_pipelines_equivalent :
    ∀ (projectId : String) (mfs mts : Nat) (resp : FetchResponse),
      Except.map (List.map (fun z => (z.name, z.input)))
          (downloadToResponseModel projectId mfs mts resp) =
        cloneProjectModel projectId mfs mts resp :=
  models_agree

/-- C3: an identifier with any character outside `[A-Za-z0-9_-]` (or empty)
makes both pipelines fail with the invalid-identifier error regardless of what
the network would return; a matching identifier passes validation. -/
theorem claim_C3_projectId_validation :
    ∀ (pid : String) (mfs mts : Nat) (resp : FetchResponse),
      ((pid.data = [] ∨ ∃ c ∈ pid.data, ¬ isWordDashChar c = true) →
        downloadToResponseModel pid mfs mts resp = .error .invalidProjectId ∧
        cloneProjectModel pid mfs mts resp = .error .invalidProjectId) ∧
      ((pid.data ≠ [] ∧ ∀ c ∈ pid.data, isWordDashChar c = true) →
        downloadToResponseModel pid mfs mts resp ≠ .error .invalidProjectId ∧
        cloneProjectModel pid mfs mts resp ≠ .error .invalidProjectId) := by
  intro pid mfs mts resp
  constructor
  · intro h
    have hv : (!isValidProjectId pid) = true := by
      have hfalse : isValidProjectId pid = false := by
        rcases h with h | ⟨c, hc, hbad⟩
        · simp [isValidProjectId, h]
        · simp only [isValidProjectId, Bool.and_eq_false_iff]
          exact Or.inr (List.all_eq_false.mpr ⟨c, hc, hbad⟩)
      simp [hfalse]
    constructor
    · unfold downloadToResponseModel; rw [if_pos hv]
    · unfold cloneProjectModel; rw [if_pos hv]
  · intro h
    have hv : isValidProjectId pid = true := by
      simp only [isValidProjectId, Bool.and_eq_true]
      exact ⟨by simp [List.isEmpty_eq_false.mpr h.1], List.all_eq_true.mpr h.2⟩
    have hdl : downloadToResponseModel pid mfs mts resp ≠ .error .invalidProjectId := by
      intro hcon
      unfold downloadToResponseModel at hcon
      rw [if_neg (by simp [hv])] at hcon
      by_cases h2 : (!resp.ok) = true
      · rw [if_pos h2] at hcon
        injection hcon with h'
        cases h'
      · rw [if_neg h2] at hcon
        cases hproj : resp.project? with
        | none =>
          rw [hproj] at hcon
          dsimp only at hcon
          injection hcon with h'
          cases h'
        | some pd =>
          rw [hproj] at hcon
          dsimp only at hcon
          cases hpd : pd.appFiles? with
          | none =>
            rw [hpd] at hcon
            dsimp only at hcon
            injection hcon with h'
            cases h'
          | some appFiles =>
            rw [hpd] at hcon
            dsimp only at hcon
            rcases downloadLoop_error_shape mfs mts appFiles 0 [] _ hcon
              with ⟨p, hp⟩ | hp <;> cases hp
    have hcl : cloneProjectModel pid mfs mts resp ≠ .error .invalidProjectId := by
      intro hcon
      rw [← models_agree] at hcon
      exact hdl ((except_map_error_iff _ _ _).mp hcon)
    exact ⟨hdl, hcl⟩

/-- C3 witness: `"a b"` (a space is outside the class) is rejected by both
pipelines; `"abc"` passes validation. -/
theorem claim_C3_witness :
    downloadToResponseModel "a b" 5 10 ⟨true, "OK", none⟩ =
      .error .invalidProjectId ∧
    downloadToResponseModel "abc" 5 10 ⟨true, "OK", none⟩ ≠
      .error .invalidProjectId := by
  constructor
  · exact ((claim_C3_projectId_validation "a b" 5 10 ⟨true, "OK", none⟩).1
      (Or.inr ⟨' ', by decide, by decide⟩)).1
  · exact ((claim_C3_projectId_validation "abc" 5 10 ⟨true, "OK", none⟩).2
      ⟨by decide, by decide⟩).1

/-- C4 counterexample: the raw path `".."` is of kind `file`, passes the
`node_modules/` / `.git/` prefix-exclusion, and yet the post-normalization
rejection branch fires (its normalization is empty), so the entry is skipped
by the defensive double-check — the branch is reachable. -/
theorem claim_C4_counterexample :
    isExcludedPath ".." = false ∧
    suspiciousPath (normalizePath "..") = true ∧
    downloadLoop 10 10 [("..", ⟨"x", FileType.file, "y", ".."⟩)] 0 [] = .ok [] :=
  ⟨rfl, rfl, rfl⟩

/-- C4 (amended): of the three disjuncts of the post-normalization rejection,
only `startsWith('/')` is unreachable; the emptiness test fires for raw paths
that normalize to nothing (e.g. `".."`) and the `'..'`-substring test fires
for segments containing `..` (e.g. `"a..b"`). -/
theorem claim_C4_amended :
    (∀ p : String, jsStartsWith "/" (normalizePath p) = false) ∧
    normalizePath ".." = "" ∧ suspiciousPath "" = true ∧
    normalizePath "a..b" = "a..b" ∧ suspiciousPath "a..b" = true :=
  ⟨normalizePath_no_leading_slash, rfl, rfl, rfl, rfl⟩

/-- C5 counterexample: an empty `appFiles` collection (a truthy empty object
in JS) does not produce the malformed-response error — the pipeline succeeds
with an empty archive. -/
theorem claim_C5_counterexample :
    downloadToResponseModel "abc" 10 100 ⟨true, "OK", some ⟨some []⟩⟩ = .ok [] ∧
    downloadToResponseModel "abc" 10 100 ⟨true, "OK", some ⟨some []⟩⟩ ≠
      .error .noFiles := by
  have h : downloadToResponseModel "abc" 10 100 ⟨true, "OK", some ⟨some []⟩⟩ =
      .ok [] := rfl
  refine ⟨h, fun hcon => ?_⟩
  rw [h] at hcon
  cases hcon

/-- C5 (amended): the malformed-response error is raised exactly when the
`project` field or its `appFiles` field is *absent*; an empty `appFiles`
collection is accepted and yields an empty result. -/
theorem claim_C5_amended :
    ∀ (pid : String) (mfs mts : Nat) (resp : FetchResponse),
      isValidProjectId pid = true → resp.ok = true →
      ((resp.project? = none ∨ resp.project? = some ⟨none⟩) →
        downloadToResponseModel pid mfs mts resp = .error .noFiles ∧
        cloneProjectModel pid mfs mts resp = .error .noFiles) ∧
      (resp.project? = some ⟨some []⟩ →
        downloadToResponseModel pid mfs mts resp = .ok [] ∧
        cloneProjectModel pid mfs mts resp = .ok []) := by
  intro pid mfs mts resp hv hok
  rcases resp with ⟨ok, st, proj⟩
  simp only at hok
  subst hok
  constructor
  · intro hcase
    rcases hcase with hp | hp <;> simp only at hp <;> subst hp <;>
      exact ⟨by simp [downloadToResponseModel, hv],
        by simp [cloneProjectModel, hv]⟩
  · intro hp
    simp only at hp
    subst hp
    exact ⟨by simp [downloadToResponseModel, hv, downloadLoop],
      by simp [cloneProjectModel, hv, cloneLoop]⟩

/-- C5 witness: a present `project` with absent `appFiles` raises the
malformed-response error in both pipelines. -/
theorem claim_C5_amended_witness :
    downloadToResponseModel "abc" 5 10 ⟨true, "OK", some ⟨none⟩⟩ =
      .error .noFiles ∧
    cloneProjectModel "abc" 5 10 ⟨true, "OK", some ⟨none⟩⟩ =
      .error .noFiles :=
  (claim_C5_amended "abc" 5 10 ⟨true, "OK", some ⟨none⟩⟩ (by decide) rfl).1
    (Or.inr rfl)

/-- C6 counterexample: a tree whose skip-surviving files total 11 bytes
against a 10-byte cumulative ceiling, where the crossing file also violates
the 5-byte per-file limit: the operation fails with the file-too-large error,
not the total-size error the claim demands. -/
theorem claim_C6_counterexample :
    keptSize [("a", ⟨"a", FileType.file, "aaaa", "a"⟩),
      ("b", ⟨"b", FileType.file, "bbbbbbb", "b"⟩)] > 10 ∧
    downloadLoop 5 10 [("a", ⟨"a", FileType.file, "aaaa", "a"⟩),
      ("b", ⟨"b", FileType.file, "bbbbbbb", "b"⟩)] 0 [] =
      .error (.fileTooLarge "b" 5) ∧
    downloadLoop 5 10 [("a", ⟨"a", FileType.file, "aaaa", "a"⟩),
      ("b", ⟨"b", FileType.file, "bbbbbbb", "b"⟩)] 0 [] ≠
      .error (.totalSizeExceeded 10) := by
  have heq : downloadLoop 5 10 [("a", ⟨"a", FileType.file, "aaaa", "a"⟩),
      ("b", ⟨"b", FileType.file, "bbbbbbb", "b"⟩)] 0 [] =
      .error (.fileTooLarge "b" 5) := rfl
  refine ⟨by decide, heq, fun hcon => ?_⟩
  rw [heq] at hcon
  injection hcon with h'
  cases h'

/-- C6 (amended): provided no skip-surviving file individually exceeds the
per-file limit, the operation fails with the total-size error at the first
surviving file that pushes the running total strictly above the cumulative
ceiling — whatever entries follow are never examined — and in archive mode no
archive value is produced. -/
theorem claim_C6_amended :
    ∀ (mfs mts : Nat) (pre post : List (String × FileData))
      (e : String × FileData) (pid st : String),
      isSkippedEntry e.1 e.2 = false →
      utf8Len e.2.contents ≤ mfs →
      (∀ f ∈ keptEntries pre, utf8Len f.2.contents ≤ mfs) →
      keptSize pre ≤ mts →
      keptSize pre + utf8Len e.2.contents > mts →
      downloadLoop mfs mts (pre ++ e :: post) 0 [] =
        .error (.totalSizeExceeded mts) ∧
      (isValidProjectId pid = true →
        downloadToResponseModel pid mfs mts
            ⟨true, st, some ⟨some (pre ++ e :: post)⟩⟩ =
          .error (.totalSizeExceeded mts)) := by
  intro mfs mts pre post e pid st hkeep hesize hsmall hpre hcross
  have hloop := downloadLoop_totalSize mfs mts e post hkeep hesize pre 0 []
    hsmall (by omega) (by omega)
  refine ⟨hloop, fun hv => ?_⟩
  unfold downloadToResponseModel
  rw [if_neg (by simp [hv]), if_neg (by simp)]
  exact hloop

/-- C6 witness: `"aaaa"` (4 bytes) then `"bbbbbbb"` (7 bytes) against a
10-byte ceiling with a 100-byte per-file limit: total-size error, also at the
model level. -/
theorem claim_C6_amended_witness :
    downloadLoop 100 10
      [("a", ⟨"a", FileType.file, "aaaa", "a"⟩),
       ("b", ⟨"b", FileType.file, "bbbbbbb", "b"⟩),
       ("c", ⟨"c", FileType.file, "zz", "c"⟩)] 0 [] =
      .error (.totalSizeExceeded 10) ∧
    downloadToResponseModel "abc" 100 10
      ⟨true, "OK", some ⟨some [("a", ⟨"a", FileType.file, "aaaa", "a"⟩),
        ("b", ⟨"b", FileType.file, "bbbbbbb", "b"⟩),
        ("c", ⟨"c", FileType.file, "zz", "c"⟩)]⟩⟩ =
      .error (.totalSizeExceeded 10) := by
  have h := claim_C6_amended 100 10
    [("a", ⟨"a", FileType.file, "aaaa", "a"⟩)]
    [("c", ⟨"c", FileType.file, "zz", "c"⟩)]
    ("b", ⟨"b", FileType.file, "bbbbbbb", "b"⟩) "abc" "OK"
    (by decide) (by decide) (by decide) (by decide) (by decide)
  exact ⟨h.1, h.2 (by decide)⟩

/-- C7: an entry whose *raw* path contains `node_modules/` or `.git/` as a
substring is skipped by both pipelines — the loops behave exactly as if the
entry were absent, for any file data, so it is never archived or written. -/
theorem claim_C7_raw_path_exclusion :
    ∀ (mfs mts : Nat) (fp : String) (fd : FileData)
      (rest : List (String × FileData)) (ts : Nat)
      (files : List ZipEntry) (written : List (String × String)),
      (jsIncludes "node_modules/" fp || jsIncludes ".git/" fp) = true →
      downloadLoop mfs mts ((fp, fd) :: rest) ts files =
        downloadLoop mfs mts rest ts files ∧
      cloneLoop mfs mts ((fp, fd) :: rest) ts written =
        cloneLoop mfs mts rest ts written := by
  intro mfs mts fp fd rest ts files written h
  have h' : isSkippedEntry fp fd = true := by
    simp only [isSkippedEntry, isExcludedPath, h, Bool.true_or]
  exact ⟨downloadLoop_skip mfs mts fp fd rest ts files h',
    cloneLoop_skip mfs mts fp fd rest ts written h'⟩

/-- C7 witness: `"node_modules/../x"` normalizes to the innocuous `"x"`, yet
is skipped because the exclusion is checked on the raw path. -/
theorem claim_C7_witness :
    (jsIncludes "node_modules/" "node_modules/../x" ||
      jsIncludes ".git/" "node_modules/../x") = true ∧
    normalizePath "node_modules/../x" = "x" ∧
    downloadLoop 5 10
        [("node_modules/../x", ⟨"x", FileType.file, "hi", "x"⟩)] 0 [] =
      downloadLoop 5 10 [] 0 [] := by
  refine ⟨by decide, rfl, ?_⟩
  exact (claim_C7_raw_path_exclusion 5 10 "node_modules/../x"
    ⟨"x", FileType.file, "hi", "x"⟩ [] 0 [] [] (by decide)).1

/-- C8 counterexample: a URL containing `/edit/` followed by a nonempty
segment, for which `parseUrl` nonetheless throws — the marker the code
requires is `stackblitz.com/edit/`, not bare `/edit/`. -/
theorem claim_C8_counterexample :
    "https://example.com/edit/abc".data =
      "https://example.com".data ++ "/edit/".data ++ "abc".data ∧
    "abc".data.takeWhile segChar ≠ [] ∧
    parseUrl "https://example.com/edit/abc" =
      .error "Invalid StackBlitz URL: https://example.com/edit/abc" :=
  ⟨by decide, by decide, rfl⟩

/-- C8 (amended): the marker is `stackblitz.com/edit/`. For every URL
containing the marker (at a leftmost position, i.e. no occurrence earlier)
followed by a nonempty run of characters outside `/?#`, `parseUrl` returns
exactly that run; when no occurrence of the marker followed by such a run
exists, it throws the invalid-URL error. -/
theorem claim_C8_parseUrl_marker :
    (∀ (pre rest : List Char) (url : String),
      url.data = pre ++ editMarker ++ rest →
      listContainsSub editMarker (pre ++ editMarker.dropLast) = false →
      rest.takeWhile segChar ≠ [] →
      parseUrl url = .ok ⟨rest.takeWhile segChar⟩) ∧
    (∀ url : String,
      (¬ ∃ pre rest, url.data = pre ++ editMarker ++ rest ∧
        rest.takeWhile segChar ≠ []) →
      parseUrl url = .error ("Invalid StackBlitz URL: " ++ url)) :=
  ⟨parseUrl_ok_of, parseUrl_error_of⟩

/-- C8 witness: the documented example URL parses to its project id. -/
theorem claim_C8_witness :
    parseUrl "https://stackblitz.com/edit/nuxt-starter-k7spa3r4" =
      .ok "nuxt-starter-k7spa3r4" := by
  have h := claim_C8_parseUrl_marker.1 "https://".data
    "nuxt-starter-k7spa3r4".data
    "https://stackblitz.com/edit/nuxt-starter-k7spa3r4"
    (by decide) (by decide) (by decide)
  exact h.trans (congrArg Except.ok (by decide))

/-- C9: `normalizePath` is idempotent. -/
theorem claim_C9_normalizePath_idempotent :
    ∀ p : String, normalizePath (normalizePath p) = normalizePath p :=
  normalizePath_idem_aux

/-- C10: an entry skipped for any reason (excluded raw path, non-file kind,
or rejected normalized path) leaves the running byte total and the
accumulated output untouched and can never trigger a size error: both loops
behave exactly as if the entry were absent. -/
theorem claim_C10_skipped_entries_cost_nothing :
    ∀ (mfs mts : Nat) (fp : String) (fd : FileData)
      (rest : List (String × FileData)) (ts : Nat)
      (files : List ZipEntry) (written : List (String × String)),
      isSkippedEntry fp fd = true →
      downloadLoop mfs mts ((fp, fd) :: rest) ts files =
        downloadLoop mfs mts rest ts files ∧
      cloneLoop mfs mts ((fp, fd) :: rest) ts written =
        cloneLoop mfs mts rest ts written :=
  fun mfs mts fp fd rest ts files written h =>
    ⟨downloadLoop_skip mfs mts fp fd rest ts files h,
     cloneLoop_skip mfs mts fp fd rest ts written h⟩

/-- C10 witness: a directory entry with huge hypothetical contents is skipped
and contributes nothing. -/
theorem claim_C10_witness :
    isSkippedEntry "src" ⟨"src", FileType.directory, "contents", "src"⟩ = true ∧
    downloadLoop 5 10
        [("src", ⟨"src", FileType.directory, "contents", "src"⟩)] 0 [] =
      downloadLoop 5 10 [] 0 [] := by
  refine ⟨by decide, ?_⟩
  exact (claim_C10_skipped_entries_cost_nothing 5 10 "src"
    ⟨"src", FileType.directory, "contents", "src"⟩ [] 0 [] [] (by decide)).1

end StackblitzZip
